import Mathlib

set_option linter.unusedSectionVars false

/-!
Verification of the in-memory vector similarity store (Go, `part_000` lines 580-828).

Shallow embedding conventions:
* Go `float32`/`float64` scalars are idealized as an arbitrary linearly ordered
  commutative ring `F` (the store and query engine only ever compare scores and
  the metrics only use `+`, `*`, `^2`); concrete witnesses instantiate `F := ℤ`.
* Go `type ID string` is modeled as an arbitrary linearly ordered type `ι` (the
  store only three-way-compares identifiers); witnesses instantiate `ι := ℕ`.
* The opaque `Metadata any` payload is a type parameter `M`.
* The `sync.RWMutex` is dropped: every operation is modeled as a pure function
  on the state it observes under the lock (a `Query` computes from the single
  snapshot of `entries` it reads under `RLock`).
* A Go panic is modeled as `Option.none`.
* `slices.BinarySearchFunc` (standard library, outside this repository) is
  modeled by its documented contract: it returns the smallest index `n` such
  that `cmp(slice[n], target) ≥ 0` together with a flag telling whether
  `cmp(slice[n], target) = 0`; on slices that are sorted with respect to `cmp`
  (the only way the repository invokes it, see `sortedByID` and
  `leafFold_pairwise` below) the linear-scan definitions `search` and `insPos`
  used here compute exactly that contract.
-/

namespace VecDB

variable {F : Type} [LinearOrderedCommRing F] {ι : Type} [LinearOrder ι] {M : Type}

/-- Go `type Entry struct { ID ID; Metadata any; Vector []float32 }`. -/
structure Entry (ι F M : Type) where
  id : ι
  metadata : M
  vector : List F
deriving DecidableEq

/-- Go `type DistanceMetric interface { Distance(a, b []float32) float32; BiggerIsCloser() bool }`.
A value of this structure is one implementation of the interface. -/
structure DistanceMetric (F : Type) where
  dist : List F → List F → F
  biggerIsCloser : Bool

/-- Go `type VectorDB struct { mu sync.RWMutex; entries []*Entry; distanceMetric DistanceMetric }`
(the mutex is dropped, see the file comment). -/
structure VectorDB (ι F M : Type) where
  entries : List (Entry ι F M)
  distanceMetric : DistanceMetric F

/-- Go `type QueryResult struct { Score float32; Entry *Entry }`. -/
structure QueryResult (ι F M : Type) where
  score : F
  entry : Entry ι F M
deriving DecidableEq

/-- Go `type QueryOptions struct { TopK int; MinimumScore float32; Predicate func(e *Entry) bool }`.
The nil-able function field becomes an `Option`. -/
structure QueryOptions (ι F M : Type) where
  topK : ℤ
  minimumScore : F
  predicate : Option (Entry ι F M → Bool)

/-- Go `func (db *VectorDB) search(id ID) (int, bool)`: `slices.BinarySearchFunc` over
`db.entries` with the three-way comparator on `ID` only. Modeled by the binary search's
documented contract (smallest index whose element compares `≥ 0` against the target,
plus an equality flag), computed by a linear scan; on an ID-sorted slice this is
exactly what the Go binary search returns. -/
def search : List (Entry ι F M) → ι → ℕ × Bool
  | [], _ => (0, false)
  | e :: rest, id =>
    if e.id < id then
      let p := search rest id
      (p.1 + 1, p.2)
    else (0, decide (e.id = id))

/-- Go `func (db *VectorDB) Upsert(entry *Entry)`: if `search` finds the ID, replace the
slot (`db.entries[n] = entry`), otherwise `slices.Insert` at the returned index. -/
def Upsert (db : VectorDB ι F M) (entry : Entry ι F M) : VectorDB ι F M :=
  let p := search db.entries entry.id
  if p.2 then ⟨db.entries.set p.1 entry, db.distanceMetric⟩
  else ⟨db.entries.insertIdx p.1 entry, db.distanceMetric⟩

/-- Go `func (db *VectorDB) Get(id ID) (*Entry, bool)`: `(nil, false)` when not found,
otherwise `(db.entries[n], true)`; the pointer/flag pair becomes an `Option`. -/
def Get (db : VectorDB ι F M) (id : ι) : Option (Entry ι F M) :=
  let p := search db.entries id
  if p.2 then db.entries[p.1]? else none

/-- Go `func (db *VectorDB) Delete(id ID)`: `slices.Delete(db.entries, n, n+1)` when
found, no-op otherwise. -/
def Delete (db : VectorDB ι F M) (id : ι) : VectorDB ι F M :=
  let p := search db.entries id
  if p.2 then ⟨db.entries.eraseIdx p.1, db.distanceMetric⟩ else db

/-- Store invariant of `NewVectorDB` ("the entries MUST be sorted by ID"): strictly
ascending IDs, i.e. sorted in ascending order with no duplicate identifiers. -/
def sortedByID (l : List (Entry ι F M)) : Prop :=
  l.Pairwise (fun a b => a.id < b.id)

instance (l : List (Entry ι F M)) : Decidable (sortedByID l) :=
  List.instDecidablePairwise l

/-- One mutation of the store: the two write operations of the Entry Store API. -/
inductive Op (ι F M : Type) where
  | upsert (e : Entry ι F M)
  | delete (id : ι)

/-- Apply a single mutation. -/
def applyOp (db : VectorDB ι F M) : Op ι F M → VectorDB ι F M
  | .upsert e => Upsert db e
  | .delete id => Delete db id

/-- Apply a sequence of mutations in order. -/
def applyOps (db : VectorDB ι F M) (ops : List (Op ι F M)) : VectorDB ι F M :=
  ops.foldl applyOp db

/-- Go `for _, e := range entries { if o.Predicate != nil && !o.Predicate(e) { continue } … }`:
an entry passes the predicate filter when no predicate is configured or the predicate
returns true. -/
def predPass (o : QueryOptions ι F M) (e : Entry ι F M) : Bool :=
  match o.predicate with
  | none => true
  | some p => p e

/-- Combination of the two `continue` tests of the leaf loop of `querySlice`: the entry
passes the predicate filter and its score does not fail the `score < o.MinimumScore`
cutoff test. -/
def passes (metric : DistanceMetric F) (v : List F) (o : QueryOptions ι F M)
    (e : Entry ι F M) : Bool :=
  predPass o e && !(decide (metric.dist v e.vector < o.minimumScore))

/-- Number of entries of a collection that pass both the predicate filter and the
minimum-score cutoff of the leaf loop. -/
def passingCount (metric : DistanceMetric F) (v : List F) (o : QueryOptions ι F M)
    (entries : List (Entry ι F M)) : ℕ :=
  (entries.filter (passes metric v o)).length

/-- The `QueryResult` the leaf loop of `querySlice` builds for an entry:
`QueryResult{Score: db.distanceMetric.Distance(vector, e.Vector), Entry: e}`. -/
def mkQR (metric : DistanceMetric F) (v : List F) (e : Entry ι F M) : QueryResult ι F M :=
  ⟨metric.dist v e.vector, e⟩

/-- Go comparator passed to `slices.BinarySearchFunc` in the leaf loop of `querySlice`:
`n := 0; if a.Score < b.Score { n = 1 }; if a.Score > b.Score { n = -1 };
if db.distanceMetric.BiggerIsCloser() { n = -n }; return n`. -/
def cmpQR (bic : Bool) (a b : QueryResult ι F M) : ℤ :=
  let n : ℤ := if a.score < b.score then 1 else if b.score < a.score then -1 else 0
  if bic then -n else n

/-- Insertion index `n` returned by `slices.BinarySearchFunc(results, qr, cmp)` in the
leaf loop: smallest index whose element compares `≥ 0` against `qr` (the found flag is
discarded by the Go code). The linear scan equals the binary search on every slice that
is sorted with respect to `cmpQR`, which `results` always is (`leafFold_pairwise`). -/
def insPos (bic : Bool) : List (QueryResult ι F M) → QueryResult ι F M → ℕ
  | [], _ => 0
  | a :: rest, qr => if cmpQR bic a qr < 0 then insPos bic rest qr + 1 else 0

/-- One iteration of the sequential (leaf) loop of `querySlice`, lines 716-747: skip on
predicate failure, skip on `score < o.MinimumScore`, otherwise binary-search the
insertion index `n`; discard when `n == cap(results)`, otherwise delete the last element
when `len(results) == o.TopK` and insert at `n`. Since `results` is created with
`make([]QueryResult, 0, o.TopK)` and `slices.Delete`/`slices.Insert` never regrow it,
`cap(results)` is `o.TopK` throughout, so the `n == cap(results)` test is `n == o.TopK`. -/
def leafStep (metric : DistanceMetric F) (v : List F) (o : QueryOptions ι F M)
    (results : List (QueryResult ι F M)) (e : Entry ι F M) : List (QueryResult ι F M) :=
  if !predPass o e then results
  else
    let score := metric.dist v e.vector
    if score < o.minimumScore then results
    else
      let qr : QueryResult ι F M := ⟨score, e⟩
      let n := insPos metric.biggerIsCloser results qr
      if (n : ℤ) = o.topK then results
      else
        (if (results.length : ℤ) = o.topK then results.dropLast else results).insertIdx n qr

/-- The whole sequential (leaf) branch of `querySlice`: fold `leafStep` over the
partition starting from the empty `make([]QueryResult, 0, o.TopK)` slice. -/
def leafFold (metric : DistanceMetric F) (v : List F) (o : QueryOptions ι F M)
    (entries : List (Entry ι F M)) : List (QueryResult ι F M) :=
  entries.foldl (leafStep metric v o) []

/-- Two-pointer merge of `querySlice`, lines 694-712: while results remain, drain the
other list when one is empty, otherwise take the left head when
`leftResult[0].Score >= rightResult[0].Score` and the right head otherwise.
Written structurally on the left list: with left head `a`, the loop first emits the
right heads that are strictly greater than `a.score`, then emits `a` and continues. -/
def mergeQR : List (QueryResult ι F M) → List (QueryResult ι F M) → List (QueryResult ι F M)
  | [], r => r
  | a :: ls, r =>
    (r.takeWhile fun b => decide (a.score < b.score)) ++
      a :: mergeQR ls (r.dropWhile fun b => decide (a.score < b.score))

/-- Go `func (db *VectorDB) querySlice(entries []*Entry, vector []float32, o *QueryOptions)`
with the per-partition threshold `T` (the source fixes `const threshold = 100`; `T` is a
parameter so that different partitionings of the same collection can be compared, as the
design document's merge-equivalence property demands). The recursion of the source
terminates because both halves of a split are strictly shorter than the partition; here
it is driven by a fuel argument that bounds the recursion depth, and the wrapper
`querySliceT` passes `entries.length`, which the termination argument shows is enough
(every theorem below only assumes `entries.length ≤ fuel`). -/
def querySliceCore (metric : DistanceMetric F) (T : ℕ) (v : List F) (o : QueryOptions ι F M) :
    ℕ → List (Entry ι F M) → List (QueryResult ι F M)
  | 0, entries => leafFold metric v o entries
  | fuel + 1, entries =>
    if entries.length > T then
      let half := entries.length / 2
      mergeQR (querySliceCore metric T v o fuel (entries.take half))
        (querySliceCore metric T v o fuel (entries.drop half))
    else leafFold metric v o entries

/-- `querySlice` with an explicit per-partition threshold `T`. -/
def querySliceT (metric : DistanceMetric F) (T : ℕ) (entries : List (Entry ι F M))
    (v : List F) (o : QueryOptions ι F M) : List (QueryResult ι F M) :=
  querySliceCore metric T v o entries.length entries

/-- Go `func (db *VectorDB) Query(vector []float32, o QueryOptions) []QueryResult`:
run `querySlice` with the source's `const threshold = 100` on the snapshot of
`db.entries`. The very first statement every leaf executes is
`make([]QueryResult, 0, o.TopK)`, which panics when `o.TopK < 0`; the panic is modeled
as `none`. -/
def Query (db : VectorDB ι F M) (v : List F) (o : QueryOptions ι F M) :
    Option (List (QueryResult ι F M)) :=
  if o.topK < 0 then none
  else some (querySliceT db.distanceMetric 100 db.entries v o)

/-- Accumulation loop of `func (d DotProduct) Distance(a, b []float32) float32`:
`for k := range a { dotProduct += a[k] * b[k] }` with accumulator `acc`; reading `b[k]`
for `k ≥ len(b)` panics (`none`). -/
def dotLoop (acc : F) : List F → List F → Option F
  | [], _ => some acc
  | _ :: _, [] => none
  | x :: xs, y :: ys => dotLoop (acc + x * y) xs ys

/-- Go `func (d DotProduct) Distance(a, b []float32) float32`, starting from
`dotProduct := float32(0.0)`. -/
def dotProductDistance (a b : List F) : Option F :=
  dotLoop 0 a b

/-- Accumulation loop of `func (c CosineSimilarity) Distance(a, b []float32) float32`:
`for k := range a { dotProduct += a[k]*b[k]; magnitudeA += a[k]^2; magnitudeB += b[k]^2 }`
on the accumulator `(dotProduct, magnitudeA, magnitudeB)`; reading `b[k]` for
`k ≥ len(b)` panics (`none`). The function then returns
`float32(dotProduct / (sqrt(magnitudeA) * sqrt(magnitudeB)))`, which cannot panic
(IEEE division and square root never abort), so the loop is the only failure source. -/
def cosineLoop (acc : F × F × F) : List F → List F → Option (F × F × F)
  | [], _ => some acc
  | _ :: _, [] => none
  | x :: xs, y :: ys => cosineLoop (acc.1 + x * y, acc.2.1 + x ^ 2, acc.2.2 + y ^ 2) xs ys

/-- Accumulated sums of `CosineSimilarity.Distance` starting from `0.0, 0.0, 0.0`. -/
def cosineSums (a b : List F) : Option (F × F × F) :=
  cosineLoop (0, 0, 0) a b

/-- Go `func (c CosineSimilarity) BiggerIsCloser() bool { return false }`. -/
def cosineBiggerIsCloser : Bool := false

/-- Go `func (d DotProduct) BiggerIsCloser() bool { return true }`. -/
def dotBiggerIsCloser : Bool := true

/-- Total dot product over pointwise pairs: agrees with the `DotProduct.Distance` loop
whenever `a.length ≤ b.length` (`dotLoop_eq_dotTotal` below), in particular in every
query against a store whose vectors all have the query's dimension. Used as the
`Distance` field when building a `DistanceMetric` value for the query engine. -/
def dotTotal (a b : List F) : F :=
  (a.zip b).foldl (fun s p => s + p.1 * p.2) 0

/-- The `DotProduct{}` metric as a `DistanceMetric` value for the query engine
(dimension-matched stores only; the partial `dotProductDistance` models the panic). -/
def DotProductMetric (F : Type) [LinearOrderedCommRing F] : DistanceMetric F :=
  ⟨dotTotal, dotBiggerIsCloser⟩

/-! ### Entry-store lemmas

The three operations are first rephrased at the level of the entry list and given
one-step unfoldings on `cons`, mirroring the recursion of `search`. -/

/-- The entry list produced by `Upsert`. -/
def upsertL (l : List (Entry ι F M)) (entry : Entry ι F M) : List (Entry ι F M) :=
  let p := search l entry.id
  if p.2 then l.set p.1 entry else l.insertIdx p.1 entry

/-- The entry list produced by `Delete`. -/
def deleteL (l : List (Entry ι F M)) (id : ι) : List (Entry ι F M) :=
  let p := search l id
  if p.2 then l.eraseIdx p.1 else l

/-- The lookup performed by `Get`, at the level of the entry list. -/
def getL (l : List (Entry ι F M)) (id : ι) : Option (Entry ι F M) :=
  let p := search l id
  if p.2 then l[p.1]? else none

theorem search_cons (a : Entry ι F M) (l : List (Entry ι F M)) (id : ι) :
    search (a :: l) id =
      if a.id < id then ((search l id).1 + 1, (search l id).2)
      else (0, decide (a.id = id)) := rfl

theorem Upsert_entries (db : VectorDB ι F M) (e : Entry ι F M) :
    (Upsert db e).entries = upsertL db.entries e := by
  unfold Upsert upsertL
  by_cases h : (search db.entries e.id).2 <;> simp [h]

theorem Delete_entries (db : VectorDB ι F M) (id : ι) :
    (Delete db id).entries = deleteL db.entries id := by
  unfold Delete deleteL
  by_cases h : (search db.entries id).2 <;> simp [h]

theorem Get_eq_getL (db : VectorDB ι F M) (id : ι) :
    Get db id = getL db.entries id := rfl

theorem upsertL_nil (e : Entry ι F M) : upsertL [] e = [e] := rfl

theorem upsertL_cons (a : Entry ι F M) (l : List (Entry ι F M)) (e : Entry ι F M) :
    upsertL (a :: l) e =
      if a.id < e.id then a :: upsertL l e
      else if a.id = e.id then e :: l else e :: a :: l := by
  unfold upsertL
  rw [search_cons]
  by_cases h : a.id < e.id
  · simp only [h, if_true]
    by_cases h2 : (search l e.id).2 <;>
      simp [h2, List.insertIdx_succ_cons]
  · by_cases h2 : a.id = e.id <;> simp [h, h2, List.insertIdx_zero]

theorem deleteL_nil (id : ι) : deleteL ([] : List (Entry ι F M)) id = [] := rfl

theorem deleteL_cons (a : Entry ι F M) (l : List (Entry ι F M)) (id : ι) :
    deleteL (a :: l) id =
      if a.id < id then a :: deleteL l id
      else if a.id = id then l else a :: l := by
  unfold deleteL
  rw [search_cons]
  by_cases h : a.id < id
  · simp only [h, if_true]
    by_cases h2 : (search l id).2 <;> simp [h2, List.eraseIdx]
  · by_cases h2 : a.id = id <;> simp [h, h2, List.eraseIdx]

theorem getL_nil (id : ι) : getL ([] : List (Entry ι F M)) id = none := rfl

theorem getL_cons (a : Entry ι F M) (l : List (Entry ι F M)) (id : ι) :
    getL (a :: l) id =
      if a.id < id then getL l id
      else if a.id = id then some a else none := by
  unfold getL
  rw [search_cons]
  by_cases h : a.id < id
  · simp only [h, if_true]
    by_cases h2 : (search l id).2 <;> simp [h2]
  · by_cases h2 : a.id = id <;> simp [h, h2]

theorem mem_upsertL {x e : Entry ι F M} {l : List (Entry ι F M)}
    (h : x ∈ upsertL l e) : x = e ∨ x ∈ l := by
  induction l with
  | nil => simp [upsertL_nil] at h; simp [h]
  | cons a l ih =>
    rw [upsertL_cons] at h
    by_cases h1 : a.id < e.id
    · rw [if_pos h1] at h
      rcases List.mem_cons.1 h with h' | h'
      · exact Or.inr (h' ▸ List.mem_cons_self a l)
      · rcases ih h' with h'' | h''
        · exact Or.inl h''
        · exact Or.inr (List.mem_cons_of_mem a h'')
    · rw [if_neg h1] at h
      by_cases h2 : a.id = e.id
      · rw [if_pos h2] at h
        rcases List.mem_cons.1 h with h' | h'
        · exact Or.inl h'
        · exact Or.inr (List.mem_cons_of_mem a h')
      · rw [if_neg h2] at h
        rcases List.mem_cons.1 h with h' | h'
        · exact Or.inl h'
        · exact Or.inr h'

theorem sortedByID_upsertL {l : List (Entry ι F M)} (e : Entry ι F M)
    (h : sortedByID l) : sortedByID (upsertL l e) := by
  induction l with
  | nil => simp [upsertL_nil, sortedByID]
  | cons a l ih =>
    simp only [sortedByID, List.pairwise_cons] at h
    rw [upsertL_cons]
    rcases lt_trichotomy a.id e.id with h1 | h1 | h1
    · rw [if_pos h1]
      simp only [sortedByID, List.pairwise_cons]
      refine ⟨fun x hx => ?_, ih h.2⟩
      rcases mem_upsertL hx with h' | h'
      · exact h' ▸ h1
      · exact h.1 x h'
    · rw [if_neg (by simp [h1]), if_pos h1]
      simp only [sortedByID, List.pairwise_cons]
      exact ⟨fun x hx => h1 ▸ h.1 x hx, h.2⟩
    · rw [if_neg (not_lt.2 h1.le), if_neg (ne_of_gt h1)]
      simp only [sortedByID, List.pairwise_cons]
      refine ⟨fun x hx => ?_, h.1, h.2⟩
      rcases List.mem_cons.1 hx with h' | h'
      · exact h' ▸ h1
      · exact h1.trans (h.1 x h')

theorem deleteL_sublist (l : List (Entry ι F M)) (id : ι) :
    List.Sublist (deleteL l id) l := by
  induction l with
  | nil => simp [deleteL_nil]
  | cons a l ih =>
    rw [deleteL_cons]
    by_cases h1 : a.id < id
    · rw [if_pos h1]; exact ih.cons₂ a
    · rw [if_neg h1]
      by_cases h2 : a.id = id
      · rw [if_pos h2]; exact List.sublist_cons_self a l
      · rw [if_neg h2]

theorem sortedByID_deleteL {l : List (Entry ι F M)} (id : ι)
    (h : sortedByID l) : sortedByID (deleteL l id) :=
  h.sublist (deleteL_sublist l id)

theorem sortedByID_applyOp {db : VectorDB ι F M} (op : Op ι F M)
    (h : sortedByID db.entries) : sortedByID (applyOp db op).entries := by
  cases op with
  | upsert e => rw [applyOp, Upsert_entries]; exact sortedByID_upsertL e h
  | delete id => rw [applyOp, Delete_entries]; exact sortedByID_deleteL id h

theorem getL_none_of_forall_lt {l : List (Entry ι F M)} {id : ι}
    (h : ∀ x ∈ l, id < x.id) : getL l id = none := by
  cases l with
  | nil => exact getL_nil id
  | cons a l =>
    rw [getL_cons]
    have ha := h a (List.mem_cons_self a l)
    rw [if_neg (by exact fun hlt => absurd (ha.trans hlt) (lt_irrefl id)),
      if_neg (by exact fun he => absurd (he ▸ ha) (lt_irrefl id))]

theorem getL_upsertL {l : List (Entry ι F M)} (e : Entry ι F M) (id : ι)
    (h : sortedByID l) : getL (upsertL l e) id = if e.id = id then some e else getL l id := by
  induction l with
  | nil =>
    rw [upsertL_nil, getL_cons, getL_nil]
    by_cases h1 : e.id = id
    · rw [if_pos h1, if_neg (show ¬e.id < id by rw [h1]; exact lt_irrefl id)]
    · rw [if_neg h1]
      split <;> rfl
  | cons a l ih =>
    simp only [sortedByID, List.pairwise_cons] at h
    rw [upsertL_cons]
    by_cases hae : a.id < e.id
    · rw [if_pos hae, getL_cons]
      by_cases hai : a.id < id
      · rw [if_pos hai, ih h.2, getL_cons, if_pos hai]
      · have hne : e.id ≠ id := fun he => hai (he ▸ hae)
        rw [if_neg hai, if_neg hne, getL_cons, if_neg hai]
    · rw [if_neg hae]
      by_cases heq : a.id = e.id
      · rw [if_pos heq, getL_cons]
        by_cases hei : e.id = id
        · rw [if_neg (show ¬e.id < id by rw [hei]; exact lt_irrefl id), if_pos hei, if_pos hei]
        · rw [if_neg hei, if_neg hei, getL_cons, heq, if_neg hei]
      · have hea : e.id < a.id := lt_of_le_of_ne (not_lt.1 hae) (fun he => heq he.symm)
        rw [if_neg heq, getL_cons]
        by_cases hei : e.id = id
        · rw [if_neg (show ¬e.id < id by rw [hei]; exact lt_irrefl id), if_pos hei, if_pos hei]
        · rw [if_neg hei, if_neg hei]
          by_cases hlt : e.id < id
          · rw [if_pos hlt]
          · have hie : id < e.id := lt_of_le_of_ne (not_lt.1 hlt) (fun he => hei he.symm)
            rw [if_neg hlt, getL_cons,
              if_neg (fun hlt2 : a.id < id => absurd ((hie.trans hea).trans hlt2) (lt_irrefl id)),
              if_neg (fun he : a.id = id => absurd (he ▸ (hie.trans hea)) (lt_irrefl id))]

theorem getL_deleteL {l : List (Entry ι F M)} (d id : ι)
    (h : sortedByID l) : getL (deleteL l d) id = if d = id then none else getL l id := by
  induction l with
  | nil =>
    rw [deleteL_nil, getL_nil]
    split <;> rfl
  | cons a l ih =>
    simp only [sortedByID, List.pairwise_cons] at h
    rw [deleteL_cons]
    by_cases had : a.id < d
    · rw [if_pos had, getL_cons]
      by_cases hai : a.id < id
      · rw [if_pos hai, ih h.2, getL_cons, if_pos hai]
      · have hne : d ≠ id := fun he => hai (he ▸ had)
        rw [if_neg hai, if_neg hne, getL_cons, if_neg hai]
    · rw [if_neg had]
      by_cases haed : a.id = d
      · rw [if_pos haed]
        by_cases hdi : d = id
        · rw [if_pos hdi]
          exact getL_none_of_forall_lt (fun x hx => hdi ▸ haed ▸ h.1 x hx)
        · rw [if_neg hdi, getL_cons]
          by_cases hai : a.id < id
          · rw [if_pos hai]
          · rw [if_neg hai, if_neg (fun he => hdi (haed ▸ he))]
            have hia : id < a.id :=
              lt_of_le_of_ne (not_lt.1 hai) (fun he => hdi (haed ▸ he.symm))
            exact getL_none_of_forall_lt (fun x hx => hia.trans (h.1 x hx))
      · have hda : d < a.id := lt_of_le_of_ne (not_lt.1 had) (fun he => haed he.symm)
        rw [if_neg haed]
        by_cases hdi : d = id
        · have hia : id < a.id := by rw [← hdi]; exact hda
          rw [if_pos hdi, getL_cons,
            if_neg (fun hlt : a.id < id => absurd (hia.trans hlt) (lt_irrefl id)),
            if_neg (fun he : a.id = id => absurd (he ▸ hia) (lt_irrefl id))]
        · rw [if_neg hdi]

/-- Last-write-wins reference semantics for point lookup: the result of reading `id`
after a sequence of operations, starting from whatever the base store would answer. -/
def opsLookup (id : ι) : List (Op ι F M) → Option (Entry ι F M) → Option (Entry ι F M)
  | [], base => base
  | op :: rest, base =>
    opsLookup id rest
      (match op with
       | .upsert e => if e.id = id then some e else base
       | .delete d => if d = id then none else base)

theorem get_applyOp (db : VectorDB ι F M) (op : Op ι F M) (id : ι)
    (h : sortedByID db.entries) :
    Get (applyOp db op) id =
      (match op with
       | .upsert e => if e.id = id then some e else Get db id
       | .delete d => if d = id then none else Get db id) := by
  cases op with
  | upsert e =>
    rw [applyOp, Get_eq_getL, Get_eq_getL, Upsert_entries]
    exact getL_upsertL e id h
  | delete d =>
    rw [applyOp, Get_eq_getL, Get_eq_getL, Delete_entries]
    exact getL_deleteL d id h

theorem search_absent {l : List (Entry ι F M)} {id : ι}
    (ha : ∀ e ∈ l, e.id ≠ id) : (search l id).2 = false := by
  induction l with
  | nil => rfl
  | cons a l ih =>
    rw [search_cons]
    by_cases h1 : a.id < id
    · simp only [h1, if_true]
      exact ih (fun e he => ha e (List.mem_cons_of_mem a he))
    · simp [h1, ha a (List.mem_cons_self a l)]

/-- C6: for every store whose entry collection is sorted by identifier in strictly
ascending order (hence duplicate-free) and for every sequence of `Upsert`/`Delete`
operations, the backing entry collection remains sorted in strictly ascending order
after the whole sequence — and hence after every operation, since every prefix of the
sequence is itself such a sequence. -/
theorem applyOps_sorted (db : VectorDB ι F M) (ops : List (Op ι F M))
    (h : sortedByID db.entries) : sortedByID (applyOps db ops).entries := by
  induction ops generalizing db with
  | nil => exact h
  | cons op rest ih =>
    show sortedByID (applyOps (applyOp db op) rest).entries
    exact ih (applyOp db op) (sortedByID_applyOp op h)

/-- Witness for C6 at a concrete store and operation sequence. -/
theorem applyOps_sorted_witness :
    sortedByID ((⟨[⟨1, (), []⟩, ⟨3, (), []⟩], DotProductMetric ℤ⟩ : VectorDB ℕ ℤ Unit)).entries ∧
    sortedByID (applyOps (⟨[⟨1, (), []⟩, ⟨3, (), []⟩], DotProductMetric ℤ⟩ : VectorDB ℕ ℤ Unit)
      [Op.upsert ⟨2, (), [5]⟩, Op.delete 3, Op.upsert ⟨0, (), [7]⟩]).entries :=
  ⟨by decide, applyOps_sorted _ _ (by decide)⟩

/-- C7 counterexample: a sorted, duplicate-free initial store holding the single entry
with identifier `5`, together with the empty operation sequence. Identifier `5` was
never upserted (and never deleted), so the claim as stated requires `Get` to answer
"not found"; the code answers `found = true` with the initial entry, because the claim
ignores identifiers already present in the initial store. -/
theorem get_untouched_initial_entry_cex :
    sortedByID ((⟨[⟨5, (), [1]⟩], DotProductMetric ℤ⟩ : VectorDB ℕ ℤ Unit)).entries ∧
    Get (applyOps (⟨[⟨5, (), [1]⟩], DotProductMetric ℤ⟩ : VectorDB ℕ ℤ Unit)
      ([] : List (Op ℕ ℤ Unit))) 5 = some ⟨5, (), [1]⟩ := by
  exact ⟨by decide, by decide⟩

/-- C7 (amended): for every sorted, duplicate-free initial store and every operation
sequence, `Get id` returns exactly the last-write-wins answer `opsLookup`: the entry of
the most recent `Upsert` for `id` not followed by a `Delete id`; otherwise (identifier
never upserted, or deleted since its last upsert) whatever the initial store answers
for `id` — in particular `found = false` whenever `id` is also absent from the initial
store. -/
theorem get_applyOps_lookup (db : VectorDB ι F M) (ops : List (Op ι F M)) (id : ι)
    (h : sortedByID db.entries) :
    Get (applyOps db ops) id = opsLookup id ops (Get db id) := by
  induction ops generalizing db with
  | nil => rfl
  | cons op rest ih =>
    have h2 : Get (applyOps (applyOp db op) rest) id
        = opsLookup id rest (Get (applyOp db op) id) := ih _ (sortedByID_applyOp op h)
    cases op with
    | upsert e =>
      simpa [applyOps, opsLookup, get_applyOp db (Op.upsert e) id h] using h2
    | delete d =>
      simpa [applyOps, opsLookup, get_applyOp db (Op.delete d) id h] using h2

/-- Witness for C7 (amended) at a concrete store, operation sequence and identifier. -/
theorem get_applyOps_lookup_witness :
    sortedByID ((⟨[], DotProductMetric ℤ⟩ : VectorDB ℕ ℤ Unit)).entries ∧
    Get (applyOps (⟨[], DotProductMetric ℤ⟩ : VectorDB ℕ ℤ Unit)
        [Op.upsert ⟨1, (), [2]⟩, Op.delete 1, Op.upsert ⟨2, (), [3]⟩]) 1 =
      opsLookup 1 [Op.upsert ⟨1, (), [2]⟩, Op.delete 1, Op.upsert ⟨2, (), [3]⟩]
        (Get (⟨[], DotProductMetric ℤ⟩ : VectorDB ℕ ℤ Unit) 1) :=
  ⟨by decide, get_applyOps_lookup _ _ _ (by decide)⟩

/-- C9: for every store sorted by identifier with no duplicates and every identifier
absent from it, `Delete` is a no-op: the store — size, contents, order and metric — is
unchanged. -/
theorem delete_absent_noop (db : VectorDB ι F M) (id : ι)
    (_hs : sortedByID db.entries) (ha : ∀ e ∈ db.entries, e.id ≠ id) :
    Delete db id = db := by
  unfold Delete
  simp [search_absent ha]

/-- Witness for C9 at a concrete store and absent identifier. -/
theorem delete_absent_noop_witness :
    sortedByID ((⟨[⟨1, (), [4]⟩, ⟨2, (), [6]⟩], DotProductMetric ℤ⟩ : VectorDB ℕ ℤ Unit)).entries ∧
    (∀ e ∈ (⟨[⟨1, (), [4]⟩, ⟨2, (), [6]⟩], DotProductMetric ℤ⟩ : VectorDB ℕ ℤ Unit).entries,
      e.id ≠ 7) ∧
    Delete (⟨[⟨1, (), [4]⟩, ⟨2, (), [6]⟩], DotProductMetric ℤ⟩ : VectorDB ℕ ℤ Unit) 7 =
      (⟨[⟨1, (), [4]⟩, ⟨2, (), [6]⟩], DotProductMetric ℤ⟩ : VectorDB ℕ ℤ Unit) :=
  ⟨by decide, by decide, delete_absent_noop _ _ (by decide) (by decide)⟩

/-! ### Query-engine lemmas -/

/-- Ranking order actually maintained by the leaf loop for direction flag `bic`:
`a` may precede `b` exactly when the comparator `cmpQR` does not place `a` strictly
after `b`. Concretely this is ascending score order when `bic = true` and descending
score order when `bic = false` (`cmpQR_lt_iff`). -/
def scoreLE (bic : Bool) (a b : QueryResult ι F M) : Prop :=
  if bic then a.score ≤ b.score else b.score ≤ a.score

instance (bic : Bool) (a b : QueryResult ι F M) : Decidable (scoreLE bic a b) := by
  unfold scoreLE
  infer_instance

theorem scoreLE_trans {bic : Bool} {a b c : QueryResult ι F M}
    (h1 : scoreLE bic a b) (h2 : scoreLE bic b c) : scoreLE bic a c := by
  cases bic <;> simp only [scoreLE, if_true, if_false, Bool.false_eq_true] at *
  · exact h2.trans h1
  · exact h1.trans h2

theorem cmpQR_lt_iff (bic : Bool) (a b : QueryResult ι F M) :
    cmpQR bic a b < 0 ↔ (if bic then a.score < b.score else b.score < a.score) := by
  cases bic
  · rcases lt_trichotomy a.score b.score with h | h | h
    · simp [cmpQR, h, lt_asymm h]
    · simp [cmpQR, h]
    · simp [cmpQR, h, lt_asymm h]
  · rcases lt_trichotomy a.score b.score with h | h | h
    · simp [cmpQR, h, lt_asymm h]
    · simp [cmpQR, h]
    · simp [cmpQR, h, lt_asymm h]

theorem not_cmpQR_lt {bic : Bool} {a qr : QueryResult ι F M}
    (h : ¬ cmpQR bic a qr < 0) : scoreLE bic qr a := by
  rw [cmpQR_lt_iff] at h
  cases bic <;> simp only [scoreLE, if_true, if_false, Bool.false_eq_true] at * <;>
    exact not_lt.1 h

theorem cmpQR_lt_scoreLE {bic : Bool} {a qr : QueryResult ι F M}
    (h : cmpQR bic a qr < 0) : scoreLE bic a qr := by
  rw [cmpQR_lt_iff] at h
  cases bic <;> simp only [scoreLE, if_true, if_false, Bool.false_eq_true] at * <;>
    exact h.le

theorem insPos_le_length (bic : Bool) (l : List (QueryResult ι F M))
    (qr : QueryResult ι F M) : insPos bic l qr ≤ l.length := by
  induction l with
  | nil => exact le_refl 0
  | cons a rest ih =>
    rw [insPos]
    by_cases hc : cmpQR bic a qr < 0
    · rw [if_pos hc]
      exact Nat.succ_le_succ ih
    · rw [if_neg hc]
      exact Nat.zero_le _

theorem pairwise_insertIdx_insPos (bic : Bool) {l : List (QueryResult ι F M)}
    (qr : QueryResult ι F M) (h : l.Pairwise (scoreLE bic)) :
    (l.insertIdx (insPos bic l qr) qr).Pairwise (scoreLE bic) := by
  induction l with
  | nil => simp [insPos, List.insertIdx_zero]
  | cons a rest ih =>
    rw [List.pairwise_cons] at h
    rw [insPos]
    by_cases hc : cmpQR bic a qr < 0
    · rw [if_pos hc, List.insertIdx_succ_cons, List.pairwise_cons]
      refine ⟨fun x hx => ?_, ih h.2⟩
      rcases (List.mem_insertIdx (insPos_le_length bic rest qr)).1 hx with rfl | hx'
      · exact cmpQR_lt_scoreLE hc
      · exact h.1 x hx'
    · rw [if_neg hc, List.insertIdx_zero, List.pairwise_cons]
      have hqa : scoreLE bic qr a := not_cmpQR_lt hc
      refine ⟨fun x hx => ?_, List.pairwise_cons.2 ⟨h.1, h.2⟩⟩
      rcases List.mem_cons.1 hx with rfl | hx'
      · exact hqa
      · exact scoreLE_trans hqa (h.1 x hx')

theorem mergeQR_nil_right (l : List (QueryResult ι F M)) : mergeQR l [] = l := by
  induction l with
  | nil => rfl
  | cons a ls ih => simp [mergeQR, ih]

theorem mergeQR_cons_cons (a b : QueryResult ι F M)
    (ls rs : List (QueryResult ι F M)) :
    mergeQR (a :: ls) (b :: rs) =
      if b.score ≤ a.score then a :: mergeQR ls (b :: rs)
      else b :: mergeQR (a :: ls) rs := by
  by_cases h : a.score < b.score
  · rw [if_neg (not_le.2 h)]
    simp [mergeQR, h]
  · rw [if_pos (not_lt.1 h)]
    simp [mergeQR, h]

theorem mergeQR_length (l r : List (QueryResult ι F M)) :
    (mergeQR l r).length = l.length + r.length := by
  induction l generalizing r with
  | nil => simp [mergeQR]
  | cons a ls ih =>
    show ((r.takeWhile fun b => decide (a.score < b.score)) ++
      a :: mergeQR ls (r.dropWhile fun b => decide (a.score < b.score))).length = _
    have hsplit := congrArg List.length
      (List.takeWhile_append_dropWhile (p := fun b => decide (a.score < b.score)) (l := r))
    simp only [List.length_append] at hsplit
    simp only [List.length_append, List.length_cons, ih]
    omega

theorem mergeQR_perm (l r : List (QueryResult ι F M)) :
    List.Perm (mergeQR l r) (l ++ r) := by
  induction l generalizing r with
  | nil => simp [mergeQR]
  | cons a ls ih =>
    show List.Perm ((r.takeWhile fun b => decide (a.score < b.score)) ++
      a :: mergeQR ls (r.dropWhile fun b => decide (a.score < b.score))) ((a :: ls) ++ r)
    refine List.Perm.trans List.perm_middle (List.Perm.cons a ?_)
    refine List.Perm.trans ((List.Perm.refl _).append
      (ih (r.dropWhile fun b => decide (a.score < b.score)))) ?_
    refine List.Perm.trans (List.perm_append_comm_assoc _ _ _) ?_
    rw [List.takeWhile_append_dropWhile]
    exact List.Perm.refl _

theorem mem_mergeQR {x : QueryResult ι F M} {l r : List (QueryResult ι F M)} :
    x ∈ mergeQR l r ↔ x ∈ l ∨ x ∈ r := by
  rw [(mergeQR_perm l r).mem_iff, List.mem_append]

theorem mem_dropWhile_score_le {a y : QueryResult ι F M} {r : List (QueryResult ι F M)}
    (hr : r.Pairwise (scoreLE false))
    (hy : y ∈ r.dropWhile fun b => decide (a.score < b.score)) : y.score ≤ a.score := by
  induction r with
  | nil => simp at hy
  | cons b rs ih =>
    rw [List.pairwise_cons] at hr
    by_cases hb : a.score < b.score
    · rw [List.dropWhile_cons_of_pos (by simpa using hb)] at hy
      exact ih hr.2 hy
    · rw [List.dropWhile_cons_of_neg (by simpa using hb)] at hy
      rcases List.mem_cons.1 hy with rfl | hy'
      · exact not_lt.1 hb
      · have := hr.1 y hy'
        simp only [scoreLE, Bool.false_eq_true, if_false] at this
        exact this.trans (not_lt.1 hb)

theorem mergeQR_sorted {l r : List (QueryResult ι F M)}
    (hl : l.Pairwise (scoreLE false)) (hr : r.Pairwise (scoreLE false)) :
    (mergeQR l r).Pairwise (scoreLE false) := by
  induction l generalizing r with
  | nil => simpa [mergeQR] using hr
  | cons a ls ih =>
    rw [List.pairwise_cons] at hl
    show ((r.takeWhile fun b => decide (a.score < b.score)) ++
      a :: mergeQR ls (r.dropWhile fun b => decide (a.score < b.score))).Pairwise _
    rw [List.pairwise_append]
    refine ⟨hr.sublist (List.takeWhile_sublist _), ?_, ?_⟩
    · rw [List.pairwise_cons]
      refine ⟨fun y hy => ?_, ih hl.2 (hr.sublist (List.dropWhile_sublist _))⟩
      rcases mem_mergeQR.1 hy with hy' | hy'
      · exact hl.1 y hy'
      · simp only [scoreLE, Bool.false_eq_true, if_false]
        exact mem_dropWhile_score_le hr hy'
    · intro x hx y hy
      have hax : a.score < x.score := by simpa using List.mem_takeWhile_imp hx
      rcases List.mem_cons.1 hy with rfl | hy'
      · simp only [scoreLE, Bool.false_eq_true, if_false]
        exact hax.le
      · rcases mem_mergeQR.1 hy' with hy'' | hy''
        · have h1 := hl.1 y hy''
          simp only [scoreLE, Bool.false_eq_true, if_false] at h1 ⊢
          exact h1.trans hax.le
        · have h1 := mem_dropWhile_score_le hr hy''
          simp only [scoreLE, Bool.false_eq_true, if_false]
          exact h1.trans hax.le

theorem perm_insertIdx {α : Type} (a : α) (l : List α) {n : ℕ} (h : n ≤ l.length) :
    List.Perm (l.insertIdx n a) (a :: l) := by
  induction l generalizing n with
  | nil =>
    have h0 : n = 0 := by simpa using h
    simp [h0]
  | cons x xs ih =>
    cases n with
    | zero => simp
    | succ m =>
      rw [List.insertIdx_succ_cons]
      exact (List.Perm.cons x (ih (by simpa using h))).trans (List.Perm.swap _ _ _)

theorem insPos_dropLast {bic : Bool} {l : List (QueryResult ι F M)}
    {qr : QueryResult ι F M} (h : insPos bic l qr < l.length) :
    insPos bic l.dropLast qr = insPos bic l qr := by
  induction l with
  | nil => simp at h
  | cons a rest ih =>
    rw [insPos] at h ⊢
    by_cases hc : cmpQR bic a qr < 0
    · rw [if_pos hc] at h ⊢
      have hrest : insPos bic rest qr < rest.length := by
        simpa using h
      cases rest with
      | nil => simp [insPos] at hrest
      | cons b rs =>
        show insPos bic (a :: (b :: rs).dropLast) qr = _
        rw [insPos, if_pos hc, ih hrest]
    · rw [if_neg hc] at h ⊢
      cases rest with
      | nil => simp [insPos]
      | cons b rs =>
        show insPos bic (a :: (b :: rs).dropLast) qr = _
        rw [insPos, if_neg hc]

theorem leafStep_skip {metric : DistanceMetric F} {v : List F} {o : QueryOptions ι F M}
    {acc : List (QueryResult ι F M)} {e : Entry ι F M}
    (h : passes metric v o e = false) : leafStep metric v o acc e = acc := by
  unfold leafStep
  rcases Bool.eq_false_or_eq_true (predPass o e) with hp | hp
  · have hlt : metric.dist v e.vector < o.minimumScore := by
      rw [passes, hp, Bool.true_and, Bool.not_eq_false', decide_eq_true_eq] at h
      exact h
    rw [hp]
    simp [hlt]
  · rw [hp]
    simp

theorem leafStep_passes {metric : DistanceMetric F} {v : List F} {o : QueryOptions ι F M}
    {acc : List (QueryResult ι F M)} {e : Entry ι F M}
    (h : passes metric v o e = true) :
    leafStep metric v o acc e =
      (if (insPos metric.biggerIsCloser acc (mkQR metric v e) : ℤ) = o.topK then acc
       else (if (acc.length : ℤ) = o.topK then acc.dropLast else acc).insertIdx
         (insPos metric.biggerIsCloser acc (mkQR metric v e)) (mkQR metric v e)) := by
  rw [passes, Bool.and_eq_true] at h
  have hp : predPass o e = true := h.1
  have hge : ¬ metric.dist v e.vector < o.minimumScore := by
    have h2 := h.2
    rw [Bool.not_eq_true', decide_eq_false_iff_not] at h2
    exact h2
  unfold leafStep
  rw [hp]
  simp only [Bool.not_true, Bool.false_eq_true, if_false, hge, mkQR]

/-- In the non-discarding branch the insertion index fits into the list that is
actually inserted into, so `slices.Insert` never goes out of range. -/
theorem insPos_lt_of_ne {acc : List (QueryResult ι F M)} {qr : QueryResult ι F M}
    {o : QueryOptions ι F M} {bic : Bool}
    (hlen : (acc.length : ℤ) = o.topK) (hne : (insPos bic acc qr : ℤ) ≠ o.topK) :
    insPos bic acc qr < acc.length := by
  have h1 := insPos_le_length bic acc qr
  omega

theorem mem_leafStep {metric : DistanceMetric F} {v : List F} {o : QueryOptions ι F M}
    {acc : List (QueryResult ι F M)} {e : Entry ι F M} {r : QueryResult ι F M}
    (h : r ∈ leafStep metric v o acc e) :
    r ∈ acc ∨ (passes metric v o e = true ∧ r = mkQR metric v e) := by
  rcases Bool.eq_false_or_eq_true (passes metric v o e) with hp | hp
  · rw [leafStep_passes hp] at h
    by_cases hd : (insPos metric.biggerIsCloser acc (mkQR metric v e) : ℤ) = o.topK
    · rw [if_pos hd] at h
      exact Or.inl h
    · rw [if_neg hd] at h
      by_cases hlen : (acc.length : ℤ) = o.topK
      · rw [if_pos hlen] at h
        have hlt := insPos_lt_of_ne hlen hd
        have hle : insPos metric.biggerIsCloser acc (mkQR metric v e) ≤ acc.dropLast.length := by
          rw [List.length_dropLast]
          omega
        rcases (List.mem_insertIdx hle).1 h with rfl | h'
        · exact Or.inr ⟨hp, rfl⟩
        · exact Or.inl ((List.dropLast_sublist acc).subset h')
      · rw [if_neg hlen] at h
        rcases (List.mem_insertIdx (insPos_le_length _ _ _)).1 h with rfl | h'
        · exact Or.inr ⟨hp, rfl⟩
        · exact Or.inl h'
  · rw [leafStep_skip hp] at h
    exact Or.inl h

theorem mem_leafFold_aux {metric : DistanceMetric F} {v : List F} {o : QueryOptions ι F M}
    {p : List (Entry ι F M)} {acc : List (QueryResult ι F M)} {r : QueryResult ι F M}
    (h : r ∈ p.foldl (leafStep metric v o) acc) :
    r ∈ acc ∨ ∃ e ∈ p, passes metric v o e = true ∧ r = mkQR metric v e := by
  induction p generalizing acc with
  | nil => exact Or.inl h
  | cons e rest ih =>
    rcases ih h with h' | ⟨e', he', hp', hr'⟩
    · rcases mem_leafStep h' with h'' | ⟨hp, hr⟩
      · exact Or.inl h''
      · exact Or.inr ⟨e, List.mem_cons_self e rest, hp, hr⟩
    · exact Or.inr ⟨e', List.mem_cons_of_mem e he', hp', hr'⟩

theorem mem_leafFold {metric : DistanceMetric F} {v : List F} {o : QueryOptions ι F M}
    {p : List (Entry ι F M)} {r : QueryResult ι F M}
    (h : r ∈ leafFold metric v o p) :
    ∃ e ∈ p, passes metric v o e = true ∧ r = mkQR metric v e := by
  rcases mem_leafFold_aux h with h' | h'
  · simp at h'
  · exact h'

theorem leafStep_length_le (metric : DistanceMetric F) (v : List F) (o : QueryOptions ι F M)
    (acc : List (QueryResult ι F M)) (e : Entry ι F M) :
    (leafStep metric v o acc e).length ≤
      acc.length + (if passes metric v o e = true then 1 else 0) := by
  rcases Bool.eq_false_or_eq_true (passes metric v o e) with hp | hp
  · rw [leafStep_passes hp, if_pos hp]
    by_cases hd : (insPos metric.biggerIsCloser acc (mkQR metric v e) : ℤ) = o.topK
    · rw [if_pos hd]
      omega
    · rw [if_neg hd]
      by_cases hlen : (acc.length : ℤ) = o.topK
      · rw [if_pos hlen]
        have hlt := insPos_lt_of_ne hlen hd
        rw [List.length_insertIdx _ _ (by rw [List.length_dropLast]; omega),
          List.length_dropLast]
        omega
      · rw [if_neg hlen,
          List.length_insertIdx _ _ (insPos_le_length _ _ _)]
  · rw [leafStep_skip hp, if_neg (by simp [hp])]
    omega

theorem leafStep_length_le_topK {metric : DistanceMetric F} {v : List F}
    {o : QueryOptions ι F M} {acc : List (QueryResult ι F M)} {e : Entry ι F M}
    (hk : (acc.length : ℤ) ≤ o.topK) :
    ((leafStep metric v o acc e).length : ℤ) ≤ o.topK := by
  rcases Bool.eq_false_or_eq_true (passes metric v o e) with hp | hp
  · rw [leafStep_passes hp]
    by_cases hd : (insPos metric.biggerIsCloser acc (mkQR metric v e) : ℤ) = o.topK
    · rw [if_pos hd]
      exact hk
    · rw [if_neg hd]
      by_cases hlen : (acc.length : ℤ) = o.topK
      · rw [if_pos hlen]
        have hlt := insPos_lt_of_ne hlen hd
        rw [List.length_insertIdx _ _ (by rw [List.length_dropLast]; omega),
          List.length_dropLast]
        omega
      · rw [if_neg hlen,
          List.length_insertIdx _ _ (insPos_le_length _ _ _)]
        have h2 := insPos_le_length metric.biggerIsCloser acc (mkQR metric v e)
        omega
  · rw [leafStep_skip hp]
    exact hk

theorem leafFold_length_le_aux (metric : DistanceMetric F) (v : List F)
    (o : QueryOptions ι F M) (p : List (Entry ι F M)) (acc : List (QueryResult ι F M)) :
    (p.foldl (leafStep metric v o) acc).length ≤
      acc.length + (p.filter (passes metric v o)).length := by
  induction p generalizing acc with
  | nil => simp
  | cons e rest ih =>
    show ((rest.foldl (leafStep metric v o) (leafStep metric v o acc e)).length ≤ _)
    have h1 := ih (leafStep metric v o acc e)
    have h2 := leafStep_length_le metric v o acc e
    rcases Bool.eq_false_or_eq_true (passes metric v o e) with hp | hp
    · rw [List.filter_cons_of_pos hp, List.length_cons]
      rw [if_pos hp] at h2
      omega
    · rw [List.filter_cons_of_neg (by simp [hp])]
      rw [if_neg (by simp [hp])] at h2
      omega

theorem leafFold_length_le_passing (metric : DistanceMetric F) (v : List F)
    (o : QueryOptions ι F M) (p : List (Entry ι F M)) :
    (leafFold metric v o p).length ≤ passingCount metric v o p := by
  have := leafFold_length_le_aux metric v o p []
  simpa [leafFold, passingCount] using this

theorem leafFold_length_le_topK {metric : DistanceMetric F} {v : List F}
    {o : QueryOptions ι F M} (p : List (Entry ι F M)) (hk : 0 ≤ o.topK) :
    ((leafFold metric v o p).length : ℤ) ≤ o.topK := by
  suffices h : ∀ acc : List (QueryResult ι F M), (acc.length : ℤ) ≤ o.topK →
      ((p.foldl (leafStep metric v o) acc).length : ℤ) ≤ o.topK by
    exact h [] (by simpa using hk)
  induction p with
  | nil => exact fun acc hacc => hacc
  | cons e rest ih =>
    intro acc hacc
    exact ih _ (leafStep_length_le_topK hacc)

theorem leafStep_pairwise {metric : DistanceMetric F} {v : List F} {o : QueryOptions ι F M}
    {acc : List (QueryResult ι F M)} (e : Entry ι F M)
    (h : acc.Pairwise (scoreLE metric.biggerIsCloser)) :
    (leafStep metric v o acc e).Pairwise (scoreLE metric.biggerIsCloser) := by
  rcases Bool.eq_false_or_eq_true (passes metric v o e) with hp | hp
  · rw [leafStep_passes hp]
    by_cases hd : (insPos metric.biggerIsCloser acc (mkQR metric v e) : ℤ) = o.topK
    · rw [if_pos hd]
      exact h
    · rw [if_neg hd]
      by_cases hlen : (acc.length : ℤ) = o.topK
      · rw [if_pos hlen]
        have hlt := insPos_lt_of_ne hlen hd
        rw [← insPos_dropLast hlt]
        exact pairwise_insertIdx_insPos _ _ (h.sublist (List.dropLast_sublist acc))
      · rw [if_neg hlen]
        exact pairwise_insertIdx_insPos _ _ h
  · rw [leafStep_skip hp]
    exact h

theorem leafFold_pairwise (metric : DistanceMetric F) (v : List F) (o : QueryOptions ι F M)
    (p : List (Entry ι F M)) :
    (leafFold metric v o p).Pairwise (scoreLE metric.biggerIsCloser) := by
  suffices h : ∀ acc : List (QueryResult ι F M),
      acc.Pairwise (scoreLE metric.biggerIsCloser) →
      (p.foldl (leafStep metric v o) acc).Pairwise (scoreLE metric.biggerIsCloser) by
    exact h [] (List.Pairwise.nil)
  induction p with
  | nil => exact fun acc hacc => hacc
  | cons e rest ih =>
    intro acc hacc
    exact ih _ (leafStep_pairwise e hacc)

theorem leafFold_capfree_aux (metric : DistanceMetric F) (v : List F)
    (o : QueryOptions ι F M) (p : List (Entry ι F M)) (acc : List (QueryResult ι F M))
    (hk : (acc.length : ℤ) + p.length ≤ o.topK)
    (hs : acc.Pairwise (scoreLE metric.biggerIsCloser)) :
    List.Perm (p.foldl (leafStep metric v o) acc)
      (acc ++ (p.filter (passes metric v o)).map (mkQR metric v)) := by
  induction p generalizing acc with
  | nil => simp
  | cons e rest ih =>
    show List.Perm (rest.foldl _ (leafStep metric v o acc e)) _
    rcases Bool.eq_false_or_eq_true (passes metric v o e) with hp | hp
    · have hlen_lt : (acc.length : ℤ) < o.topK := by
        simp only [List.length_cons] at hk
        push_cast at hk
        omega
      have hle := insPos_le_length metric.biggerIsCloser acc (mkQR metric v e)
      have hne_n : (insPos metric.biggerIsCloser acc (mkQR metric v e) : ℤ) ≠ o.topK := by
        omega
      have hne_len : (acc.length : ℤ) ≠ o.topK := by omega
      have hstep : leafStep metric v o acc e =
          acc.insertIdx (insPos metric.biggerIsCloser acc (mkQR metric v e))
            (mkQR metric v e) := by
        rw [leafStep_passes hp, if_neg hne_n, if_neg hne_len]
      rw [hstep]
      have hlen' : (((acc.insertIdx (insPos metric.biggerIsCloser acc (mkQR metric v e))
          (mkQR metric v e)).length : ℤ)) + rest.length ≤ o.topK := by
        rw [List.length_insertIdx _ _ hle]
        simp only [List.length_cons] at hk
        push_cast at hk ⊢
        omega
      have hs' := pairwise_insertIdx_insPos metric.biggerIsCloser (mkQR metric v e) hs
      refine (ih _ hlen' hs').trans ?_
      rw [List.filter_cons_of_pos hp, List.map_cons]
      refine List.Perm.trans ((perm_insertIdx _ _ hle).append (List.Perm.refl _)) ?_
      exact List.perm_middle.symm
    · rw [leafStep_skip hp, List.filter_cons_of_neg (by simp [hp])]
      refine ih acc ?_ hs
      simp only [List.length_cons] at hk
      push_cast at hk ⊢
      omega

theorem querySliceCore_of_le {metric : DistanceMetric F} {v : List F}
    {o : QueryOptions ι F M} {T fuel : ℕ} {entries : List (Entry ι F M)}
    (h : ¬ entries.length > T) :
    querySliceCore metric T v o fuel entries = leafFold metric v o entries := by
  cases fuel with
  | zero => rfl
  | succ f =>
    show (if entries.length > T then _ else leafFold metric v o entries) = _
    rw [if_neg h]

theorem querySliceCore_split {metric : DistanceMetric F} {v : List F}
    {o : QueryOptions ι F M} {T fuel : ℕ} {entries : List (Entry ι F M)}
    (h : entries.length > T) :
    querySliceCore metric T v o (fuel + 1) entries =
      mergeQR (querySliceCore metric T v o fuel (entries.take (entries.length / 2)))
        (querySliceCore metric T v o fuel (entries.drop (entries.length / 2))) := by
  show (if entries.length > T then _ else _) = _
  rw [if_pos h]

theorem mem_querySliceCore {metric : DistanceMetric F} {v : List F}
    {o : QueryOptions ι F M} {T fuel : ℕ} {entries : List (Entry ι F M)}
    {r : QueryResult ι F M} (hT : 1 ≤ T) (hf : entries.length ≤ fuel)
    (h : r ∈ querySliceCore metric T v o fuel entries) :
    ∃ e ∈ entries, passes metric v o e = true ∧ r = mkQR metric v e := by
  induction fuel generalizing entries with
  | zero =>
    have h0 : entries = [] := List.length_eq_zero.1 (Nat.le_zero.1 hf)
    subst h0
    exact mem_leafFold h
  | succ f ih =>
    by_cases hs : entries.length > T
    · rw [querySliceCore_split hs] at h
      have hlen2 : 2 ≤ entries.length := by omega
      have hhalf1 : 1 ≤ entries.length / 2 := Nat.one_le_div_iff (by norm_num) |>.2 hlen2
      have hhalf_lt : entries.length / 2 < entries.length :=
        Nat.div_lt_self (by omega) (by norm_num)
      rcases mem_mergeQR.1 h with h' | h'
      · obtain ⟨e, he, hp, hr⟩ := @ih (entries.take (entries.length / 2))
          (by rw [List.length_take]; omega) h'
        exact ⟨e, List.take_subset _ _ he, hp, hr⟩
      · obtain ⟨e, he, hp, hr⟩ := @ih (entries.drop (entries.length / 2))
          (by rw [List.length_drop]; omega) h'
        exact ⟨e, List.drop_subset _ _ he, hp, hr⟩
    · rw [querySliceCore_of_le hs] at h
      exact mem_leafFold h

theorem passingCount_split (metric : DistanceMetric F) (v : List F)
    (o : QueryOptions ι F M) (entries : List (Entry ι F M)) (n : ℕ) :
    passingCount metric v o entries =
      passingCount metric v o (entries.take n) + passingCount metric v o (entries.drop n) := by
  unfold passingCount
  rw [← List.length_append, ← List.filter_append, List.take_append_drop]

theorem querySliceCore_length_le_passing {metric : DistanceMetric F} {v : List F}
    {o : QueryOptions ι F M} {T fuel : ℕ} {entries : List (Entry ι F M)}
    (hT : 1 ≤ T) (hf : entries.length ≤ fuel) :
    (querySliceCore metric T v o fuel entries).length ≤ passingCount metric v o entries := by
  induction fuel generalizing entries with
  | zero =>
    have h0 : entries = [] := List.length_eq_zero.1 (Nat.le_zero.1 hf)
    subst h0
    exact leafFold_length_le_passing metric v o []
  | succ f ih =>
    by_cases hs : entries.length > T
    · rw [querySliceCore_split hs, mergeQR_length,
        passingCount_split metric v o entries (entries.length / 2)]
      have hlen2 : 2 ≤ entries.length := by omega
      have hhalf1 : 1 ≤ entries.length / 2 := Nat.one_le_div_iff (by norm_num) |>.2 hlen2
      have hhalf_lt : entries.length / 2 < entries.length :=
        Nat.div_lt_self (by omega) (by norm_num)
      have h1 := @ih (entries.take (entries.length / 2))
        (by rw [List.length_take]; omega)
      have h2 := @ih (entries.drop (entries.length / 2))
        (by rw [List.length_drop]; omega)
      omega
    · rw [querySliceCore_of_le hs]
      exact leafFold_length_le_passing metric v o entries

theorem querySliceCore_char {metric : DistanceMetric F} {v : List F}
    {o : QueryOptions ι F M} {T fuel : ℕ} {entries : List (Entry ι F M)}
    (hb : metric.biggerIsCloser = false) (hT : 1 ≤ T)
    (hf : entries.length ≤ fuel) (hk : (entries.length : ℤ) ≤ o.topK) :
    List.Perm (querySliceCore metric T v o fuel entries)
        ((entries.filter (passes metric v o)).map (mkQR metric v)) ∧
      (querySliceCore metric T v o fuel entries).Pairwise (scoreLE false) := by
  induction fuel generalizing entries with
  | zero =>
    have h0 : entries = [] := List.length_eq_zero.1 (Nat.le_zero.1 hf)
    subst h0
    exact ⟨List.Perm.refl _, List.Pairwise.nil⟩
  | succ f ih =>
    by_cases hs : entries.length > T
    · rw [querySliceCore_split hs]
      have hlen2 : 2 ≤ entries.length := by omega
      have hhalf1 : 1 ≤ entries.length / 2 := Nat.one_le_div_iff (by norm_num) |>.2 hlen2
      have hhalf_lt : entries.length / 2 < entries.length :=
        Nat.div_lt_self (by omega) (by norm_num)
      have htk : (entries.take (entries.length / 2)).length ≤ entries.length := by
        rw [List.length_take]
        omega
      have hdk : (entries.drop (entries.length / 2)).length ≤ entries.length := by
        rw [List.length_drop]
        omega
      obtain ⟨pl, sl⟩ := @ih (entries.take (entries.length / 2))
        (by rw [List.length_take]; omega) (by omega)
      obtain ⟨pr, sr⟩ := @ih (entries.drop (entries.length / 2))
        (by rw [List.length_drop]; omega) (by omega)
      constructor
      · refine (mergeQR_perm _ _).trans ?_
        refine (pl.append pr).trans ?_
        rw [← List.map_append, ← List.filter_append, List.take_append_drop]
      · exact mergeQR_sorted sl sr
    · rw [querySliceCore_of_le hs]
      constructor
      · have := leafFold_capfree_aux metric v o entries []
          (by simpa using hk) List.Pairwise.nil
        simpa [leafFold] using this
      · have := leafFold_pairwise metric v o entries
        rwa [hb] at this

theorem leafStep_nil_topK_zero {metric : DistanceMetric F} {v : List F}
    {o : QueryOptions ι F M} (hk : o.topK = 0) (e : Entry ι F M) :
    leafStep metric v o [] e = [] := by
  rcases Bool.eq_false_or_eq_true (passes metric v o e) with hp | hp
  · rw [leafStep_passes hp]
    simp [insPos, hk]
  · exact leafStep_skip hp

theorem leafFold_topK_zero {metric : DistanceMetric F} {v : List F}
    {o : QueryOptions ι F M} (hk : o.topK = 0) (p : List (Entry ι F M)) :
    leafFold metric v o p = [] := by
  show p.foldl (leafStep metric v o) [] = []
  induction p with
  | nil => rfl
  | cons e rest ih => rw [List.foldl_cons, leafStep_nil_topK_zero hk, ih]

theorem querySliceCore_topK_zero {metric : DistanceMetric F} {v : List F}
    {o : QueryOptions ι F M} {T : ℕ} (hk : o.topK = 0) (fuel : ℕ)
    (entries : List (Entry ι F M)) :
    querySliceCore metric T v o fuel entries = [] := by
  induction fuel generalizing entries with
  | zero => exact leafFold_topK_zero hk entries
  | succ f ih =>
    by_cases hs : entries.length > T
    · rw [querySliceCore_split hs, ih, ih]
      rfl
    · rw [querySliceCore_of_le hs]
      exact leafFold_topK_zero hk entries

theorem leafFold_reject_all {metric : DistanceMetric F} {v : List F}
    {o : QueryOptions ι F M} {p : List (Entry ι F M)}
    (hp : ∀ e ∈ p, predPass o e = false) :
    leafFold metric v o p = [] := by
  show p.foldl (leafStep metric v o) [] = []
  induction p with
  | nil => rfl
  | cons e rest ih =>
    rw [List.foldl_cons,
      leafStep_skip (by rw [passes, hp e (List.mem_cons_self e rest)]; rfl)]
    exact ih (fun e' he' => hp e' (List.mem_cons_of_mem e he'))

theorem querySliceCore_reject_all {metric : DistanceMetric F} {v : List F}
    {o : QueryOptions ι F M} {T : ℕ} {fuel : ℕ} {entries : List (Entry ι F M)}
    (hp : ∀ e ∈ entries, predPass o e = false) :
    querySliceCore metric T v o fuel entries = [] := by
  induction fuel generalizing entries with
  | zero => exact leafFold_reject_all hp
  | succ f ih =>
    by_cases hs : entries.length > T
    · rw [querySliceCore_split hs,
        ih (fun e he => hp e (List.take_subset _ _ he)),
        ih (fun e he => hp e (List.drop_subset _ _ he))]
      rfl
    · rw [querySliceCore_of_le hs]
      exact leafFold_reject_all hp

/-! ### Claim theorems for the query engine -/

/-- Entry `A` of the design document's dot-product scenario (vector `[1,0]`). -/
def scnA : Entry ℕ ℤ Unit := ⟨1, (), [1, 0]⟩

/-- Entry `B` of the design document's dot-product scenario (vector `[0,1]`). -/
def scnB : Entry ℕ ℤ Unit := ⟨2, (), [0, 1]⟩

/-- Entry `C` of the design document's dot-product scenario (vector `[1,1]`). -/
def scnC : Entry ℕ ℤ Unit := ⟨3, (), [1, 1]⟩

/-- The scenario store `{A:[1,0], B:[0,1], C:[1,1]}` with the dot-product metric. -/
def scnDb : VectorDB ℕ ℤ Unit := ⟨[scnA, scnB, scnC], DotProductMetric ℤ⟩

/-- C1: evaluation of the code at the design document's own scenario (dot-product
metric, query `[1,0]`, `TopK = 2`, zero minimum score). The scores are `A ↦ 1`,
`B ↦ 0`, `C ↦ 1`, and `BiggerIsCloser()` is `true`, so the claim demands a
non-increasing result such as `[(1,A),(1,C)]`; the code instead returns
`[(0,B),(1,C)]` — strictly increasing, and it evicted the score-1 entry `A` while
keeping the score-0 entry `B` — because the `n = -n` negation in the leaf comparator
points the wrong way and the merge compares raw scores ignoring the direction flag. -/
theorem query_scenario_inverted :
    Query scnDb [1, 0] ⟨2, 0, none⟩ = some [⟨0, scnB⟩, ⟨1, scnC⟩] ∧
    (DotProductMetric ℤ).biggerIsCloser = true ∧
    ((0 : ℤ) < 1) := by decide

/-- A store of 101 empty-vector entries with ascending identifiers: one more entry
than the fan-out threshold, so the top-level `querySlice` splits once into leaves of
50 and 51 entries. All scores are `0`. -/
def bigDb : VectorDB ℕ ℤ Unit :=
  ⟨(List.range 101).map fun i => ⟨i, (), []⟩, DotProductMetric ℤ⟩

set_option maxRecDepth 8000 in
/-- C2 counterexample: on the 101-entry store with `TopK = 1` and every entry passing
(predicate absent, all scores `0` with cutoff `0`), each of the two leaves keeps one
result and the merge concatenates them without re-truncating, so `Query` returns 2
results even though `min(K, passing) = min(1, 101) = 1`. -/
theorem query_topk_exceeded_cex :
    (Query bigDb [] ⟨1, 0, none⟩).map List.length = some 2 ∧
    passingCount (DotProductMetric ℤ) [] ⟨1, 0, none⟩ bigDb.entries = 101 ∧
    sortedByID bigDb.entries := by decide

/-- C2 (amended): the result count never exceeds the number of entries passing the
predicate and the cutoff, and it is additionally bounded by `TopK` whenever the store
has at most 100 entries (a single sequential partition); above the threshold the merge
does not re-truncate, so only the passing-count bound survives. -/
theorem query_count_le_passing (db : VectorDB ι F M) (v : List F) (o : QueryOptions ι F M)
    (l : List (QueryResult ι F M)) (h : Query db v o = some l) :
    l.length ≤ passingCount db.distanceMetric v o db.entries ∧
      (db.entries.length ≤ 100 → (l.length : ℤ) ≤ o.topK) := by
  rw [Query] at h
  by_cases hk : o.topK < 0
  · rw [if_pos hk] at h
    cases h
  · rw [if_neg hk] at h
    injection h with h
    subst h
    constructor
    · exact querySliceCore_length_le_passing (by norm_num) (le_refl _)
    · intro h100
      rw [querySliceT, querySliceCore_of_le (by omega)]
      exact leafFold_length_le_topK _ (by omega)

/-- Witness entry for the query-engine witnesses: identifier 1, vector `[2]`. -/
def wE : Entry ℕ ℤ Unit := ⟨1, (), [2]⟩

/-- Witness store holding only `wE`, under the dot-product metric. -/
def wDb : VectorDB ℕ ℤ Unit := ⟨[wE], DotProductMetric ℤ⟩

/-- Witness for C2 (amended): a one-entry store, query `[3]` (score 6), `TopK = 1`. -/
theorem query_count_le_passing_witness :
    Query wDb [3] ⟨1, 0, none⟩ = some [⟨6, wE⟩] ∧
    (([⟨6, wE⟩] : List (QueryResult ℕ ℤ Unit)).length ≤
        passingCount wDb.distanceMetric [3] ⟨1, 0, none⟩ wDb.entries ∧
      (wDb.entries.length ≤ 100 →
        (([⟨6, wE⟩] : List (QueryResult ℕ ℤ Unit)).length : ℤ) ≤
          (⟨1, 0, none⟩ : QueryOptions ℕ ℤ Unit).topK)) :=
  ⟨by decide, query_count_le_passing wDb [3] ⟨1, 0, none⟩ _ (by decide)⟩

/-- A lower-is-closer metric: it scores by the (total) dot product but declares the
same ranking direction as `CosineSimilarity` (`BiggerIsCloser() == false`); a
legitimate implementation of the `DistanceMetric` interface. -/
def lowCloserMetric : DistanceMetric ℤ := ⟨dotTotal, cosineBiggerIsCloser⟩

/-- Entry whose score against the query `[1]` is 2 — the farther entry under a
lower-is-closer metric. -/
def c3far : Entry ℕ ℤ Unit := ⟨1, (), [2]⟩

/-- Entry whose score against the query `[1]` is 0 — the closer entry under a
lower-is-closer metric. -/
def c3near : Entry ℕ ℤ Unit := ⟨2, (), [0]⟩

/-- Two-entry store under the lower-is-closer metric. -/
def c3db : VectorDB ℕ ℤ Unit := ⟨[c3far, c3near], lowCloserMetric⟩

/-- C3 counterexample: lower-is-closer metric (`BiggerIsCloser = false`), cutoff
`MinimumScore = 1`, `TopK = 2`, no predicate. Entry `c3near` scores 0, which is at
least as close as the cutoff after direction normalization (0 ≤ 1 with lower closer),
so the claim requires it to pass; the code's direction-blind test
`score < MinimumScore` excludes it, and only the numerically-above-cutoff entry
`c3far` (score 2 — the farther one) is returned. -/
theorem query_cutoff_direction_cex :
    Query c3db [1] ⟨2, 1, none⟩ = some [⟨2, c3far⟩] ∧
    lowCloserMetric.biggerIsCloser = false ∧
    lowCloserMetric.dist [1] c3near.vector ≤
      (⟨2, 1, none⟩ : QueryOptions ℕ ℤ Unit).minimumScore ∧
    predPass (⟨2, 1, none⟩ : QueryOptions ℕ ℤ Unit) c3near = true := by decide

/-- C3 (amended): the minimum-score cutoff is direction-unaware and inclusive
numerically: every returned result carries a score `≥ MinimumScore` (an entry is
skipped exactly when its raw score is numerically below the cutoff, regardless of
`BiggerIsCloser`), and each result's score is exactly the metric's distance between
the query vector and that result's entry vector. -/
theorem query_results_min_score (db : VectorDB ι F M) (v : List F)
    (o : QueryOptions ι F M) (l : List (QueryResult ι F M)) (h : Query db v o = some l) :
    ∀ r ∈ l, o.minimumScore ≤ r.score ∧
      r.score = db.distanceMetric.dist v r.entry.vector := by
  intro r hr
  rw [Query] at h
  by_cases hk : o.topK < 0
  · rw [if_pos hk] at h
    cases h
  · rw [if_neg hk] at h
    injection h with h
    subst h
    obtain ⟨e, he, hp, hre⟩ := mem_querySliceCore (by norm_num) (le_refl _) hr
    subst hre
    rw [passes, Bool.and_eq_true] at hp
    refine ⟨?_, rfl⟩
    have h2 := hp.2
    rw [Bool.not_eq_true', decide_eq_false_iff_not] at h2
    exact not_lt.1 h2

/-- Witness for C3 (amended) at a concrete one-entry store. -/
theorem query_results_min_score_witness :
    Query wDb [3] ⟨1, 0, none⟩ = some [⟨6, wE⟩] ∧
    ∀ r ∈ ([⟨6, wE⟩] : List (QueryResult ℕ ℤ Unit)),
      (⟨1, 0, none⟩ : QueryOptions ℕ ℤ Unit).minimumScore ≤ r.score ∧
        r.score = wDb.distanceMetric.dist [3] r.entry.vector :=
  ⟨by decide, query_results_min_score wDb [3] ⟨1, 0, none⟩ _ (by decide)⟩

/-- C4: evaluation of both distance metrics at mismatched vector lengths. When the
first (query) vector is shorter than the second, the loop `for k := range a` reads
only `b[0..len(a))` and returns a silently truncated score — no panic — for both
`DotProduct.Distance` and `CosineSimilarity.Distance`, contradicting the claim (and
the functions' own comments); only the first-longer case panics. -/
theorem distance_mismatch_partial :
    dotProductDistance [(1 : ℤ)] [1, 1] = some 1 ∧
    cosineSums [(1 : ℤ)] [1, 1] = some (1, 1, 1) ∧
    (dotProductDistance [(1 : ℤ), 1] [1]).isNone = true ∧
    (cosineSums [(1 : ℤ), 1] [1]).isNone = true ∧
    [(1 : ℤ)].length ≠ [(1 : ℤ), 1].length := by decide

/-- Four empty-vector entries (all scores 0): with threshold 1 the recursion splits
down to four singleton leaves, with threshold 10 it runs as one sequential leaf. -/
def c5entries : List (Entry ℕ ℤ Unit) :=
  [⟨0, (), []⟩, ⟨1, (), []⟩, ⟨2, (), []⟩, ⟨3, (), []⟩]

/-- C5 counterexample: fixing the store, query and options (`TopK = 1`), the
partitioning with threshold 1 returns 4 results while the sequential evaluation
(threshold 10) returns 1 — not even permutations of each other, so no reordering of
equal scores can reconcile them; the claim fails because intermediate merges never
re-truncate to `K`. -/
theorem query_partition_dependent_cex :
    (querySliceT (DotProductMetric ℤ) 1 c5entries [] ⟨1, 0, none⟩).length = 4 ∧
    (querySliceT (DotProductMetric ℤ) 10 c5entries [] ⟨1, 0, none⟩).length = 1 ∧
    ¬ List.Perm (querySliceT (DotProductMetric ℤ) 1 c5entries [] ⟨1, 0, none⟩)
        (querySliceT (DotProductMetric ℤ) 10 c5entries [] ⟨1, 0, none⟩) := by decide

/-- C5 (amended): for a metric with `BiggerIsCloser = false` (the direction for which
the leaf order and the raw-score merge agree) and when `TopK` is at least the store
size (so the per-leaf capacity never truncates), any two positive fan-out thresholds
produce results that are permutations of each other and both non-increasingly sorted
by score — i.e. identical up to reordering results with exactly equal scores. -/
theorem query_partition_perm_sorted (metric : DistanceMetric F)
    (entries : List (Entry ι F M)) (v : List F) (o : QueryOptions ι F M)
    (T₁ T₂ : ℕ) (h₁ : 1 ≤ T₁) (h₂ : 1 ≤ T₂)
    (hb : metric.biggerIsCloser = false)
    (hk : (entries.length : ℤ) ≤ o.topK) :
    List.Perm (querySliceT metric T₁ entries v o) (querySliceT metric T₂ entries v o) ∧
      (querySliceT metric T₁ entries v o).Pairwise (scoreLE false) ∧
      (querySliceT metric T₂ entries v o).Pairwise (scoreLE false) := by
  obtain ⟨p1, s1⟩ := querySliceCore_char hb h₁ (le_refl _) hk
  obtain ⟨p2, s2⟩ := querySliceCore_char hb h₂ (le_refl _) hk
  exact ⟨p1.trans p2.symm, s1, s2⟩

/-- Two-entry list for the C5 witness (scores 5 and 3 against the query `[1]`). -/
def c5w : List (Entry ℕ ℤ Unit) := [⟨0, (), [5]⟩, ⟨1, (), [3]⟩]

/-- Witness for C5 (amended): thresholds 1 (split) and 2 (sequential) on a two-entry
store under the lower-is-closer metric with `TopK = 2`. -/
theorem query_partition_perm_sorted_witness :
    lowCloserMetric.biggerIsCloser = false ∧
    ((c5w.length : ℤ) ≤ (⟨2, 0, none⟩ : QueryOptions ℕ ℤ Unit).topK) ∧
    (List.Perm (querySliceT lowCloserMetric 1 c5w [1] ⟨2, 0, none⟩)
        (querySliceT lowCloserMetric 2 c5w [1] ⟨2, 0, none⟩) ∧
      (querySliceT lowCloserMetric 1 c5w [1] ⟨2, 0, none⟩).Pairwise (scoreLE false) ∧
      (querySliceT lowCloserMetric 2 c5w [1] ⟨2, 0, none⟩).Pairwise (scoreLE false)) :=
  ⟨by decide, by decide,
    query_partition_perm_sorted lowCloserMetric c5w [1] ⟨2, 0, none⟩ 1 2
      (by decide) (by decide) (by decide) (by decide)⟩

/-- C8 counterexample: a negative `TopK` makes every leaf's
`make([]QueryResult, 0, o.TopK)` panic (modeled as `none`) — even on an empty store —
whereas the claim promises an empty result list without failure for every `TopK ≤ 0`. -/
theorem query_negative_topk_cex :
    Query (⟨[], DotProductMetric ℤ⟩ : VectorDB ℕ ℤ Unit) [] ⟨-1, 0, none⟩ = none := by
  decide

/-- C8 (amended): for every non-negative `TopK`, `Query` returns the empty result list
(without failing) when the store has zero entries, when `TopK = 0`, and when the
configured predicate rejects every entry; a negative `TopK` instead panics in
`make([]QueryResult, 0, o.TopK)`. -/
theorem query_empty_cases (db : VectorDB ι F M) (v : List F) (o : QueryOptions ι F M)
    (hk : 0 ≤ o.topK) :
    (db.entries = [] → Query db v o = some []) ∧
    (o.topK = 0 → Query db v o = some []) ∧
    ((∀ e ∈ db.entries, predPass o e = false) → Query db v o = some []) := by
  have hneg : ¬ o.topK < 0 := not_lt.2 hk
  refine ⟨fun he => ?_, fun h0 => ?_, fun hp => ?_⟩
  · rw [Query, if_neg hneg, querySliceT, he]
    rfl
  · rw [Query, if_neg hneg, querySliceT, querySliceCore_topK_zero h0]
  · rw [Query, if_neg hneg, querySliceT, querySliceCore_reject_all hp]

/-- Witness for C8 (amended): the empty store with `TopK = 1`. -/
theorem query_empty_cases_witness :
    (0 : ℤ) ≤ (⟨1, 0, none⟩ : QueryOptions ℕ ℤ Unit).topK ∧
    Query (⟨[], DotProductMetric ℤ⟩ : VectorDB ℕ ℤ Unit) [] ⟨1, 0, none⟩ = some [] :=
  ⟨by decide,
    (query_empty_cases (⟨[], DotProductMetric ℤ⟩ : VectorDB ℕ ℤ Unit) [] ⟨1, 0, none⟩
      (by decide)).1 rfl⟩

/-- C10: every result returned by a successful `Query` carries an entry that belongs
to the store's snapshot and satisfies the configured predicate (vacuously when none is
set), and the number of results never exceeds the number of entries in the snapshot —
for every `TopK` and store size (hence any partitioning the threshold induces). -/
theorem query_results_from_store (db : VectorDB ι F M) (v : List F)
    (o : QueryOptions ι F M) (l : List (QueryResult ι F M)) (h : Query db v o = some l) :
    (∀ r ∈ l, r.entry ∈ db.entries ∧ predPass o r.entry = true) ∧
      l.length ≤ db.entries.length := by
  rw [Query] at h
  by_cases hk : o.topK < 0
  · rw [if_pos hk] at h
    cases h
  · rw [if_neg hk] at h
    injection h with h
    subst h
    constructor
    · intro r hr
      obtain ⟨e, he, hp, hre⟩ := mem_querySliceCore (by norm_num) (le_refl _) hr
      subst hre
      rw [passes, Bool.and_eq_true] at hp
      exact ⟨he, hp.1⟩
    · have h2 : passingCount db.distanceMetric v o db.entries ≤ db.entries.length := by
        unfold passingCount
        exact List.length_filter_le _ _
      exact le_trans (querySliceCore_length_le_passing (by norm_num) (le_refl _)) h2

/-- Witness for C10 at a concrete one-entry store. -/
theorem query_results_from_store_witness :
    Query wDb [3] ⟨1, 0, none⟩ = some [⟨6, wE⟩] ∧
    ((∀ r ∈ ([⟨6, wE⟩] : List (QueryResult ℕ ℤ Unit)), r.entry ∈ wDb.entries ∧
        predPass (⟨1, 0, none⟩ : QueryOptions ℕ ℤ Unit) r.entry = true) ∧
      ([⟨6, wE⟩] : List (QueryResult ℕ ℤ Unit)).length ≤ wDb.entries.length) :=
  ⟨by decide, query_results_from_store wDb [3] ⟨1, 0, none⟩ _ (by decide)⟩

end VecDB
